import Mathlib

/-!
Verification of the KLL quantile-sketch design described in the repository's
specification.  The repository itself ships only a tutorial notebook that
drives an externally provided `kll_floats_sketch`; the sketch algorithm is
therefore modelled here from the specification (data model §3, components
§4.1–§4.7) over integer values with exact rational rank arithmetic.
-/

/-- Modelled from the spec (§7): the error taxonomy reported to callers.
The implementation of the sketch is not part of this repository, so the
error kinds come from the specification's taxonomy. -/
inductive SketchError where
  | emptySketch : SketchError
  | invalidParameter : SketchError
  | formatError : SketchError
deriving DecidableEq, Repr

/-- Modelled from the spec (§3): the top-level sketch entity.  `levels`
holds the per-level item buffers (level 0 first, weight of level `i` is
`2 ^ i`); `bit` is the state of the injected unbiased random-bit source
used by the compactor (§4.3, §9), modelled as an alternating bit. -/
structure Sketch where
  k : ℕ
  n : ℕ
  minValue : Option Int
  maxValue : Option Int
  levels : List (List Int)
  bit : Bool
deriving DecidableEq, Repr

/-- Modelled from the spec (§3, §9): the per-level capacity, a monotone
formula derived from `k` and the level index in which higher levels have
smaller or equal capacity, with the documented minimum accuracy
parameter `8` as a floor. -/
def capacity (k i : ℕ) : ℕ := max (k / 2 ^ i) 8

/-- Modelled from the spec (§3 lifecycle): a sketch is created with only
`k` specified; all other state initializes to empty/zero. -/
def construct (k : ℕ) : Sketch :=
  { k := k, n := 0, minValue := none, maxValue := none, levels := [[]], bit := false }

/-- Option-lifted minimum, used for the componentwise extrema of §4.5. -/
def omin : Option Int → Option Int → Option Int
  | none, b => b
  | some x, none => some x
  | some x, some y => some (min x y)

/-- Option-lifted maximum, used for the componentwise extrema of §4.5. -/
def omax : Option Int → Option Int → Option Int
  | none, b => b
  | some x, none => some x
  | some x, some y => some (max x y)

/-- Append items to the buffer of level `i`, growing the level sequence by
appending empty levels as needed (spec §4.2 `ensureLevelExists`). -/
def addAt : List (List Int) → ℕ → List Int → List (List Int)
  | [], 0, xs => [xs]
  | [], i + 1, xs => [] :: addAt [] i xs
  | l :: ls, 0, xs => (l ++ xs) :: ls
  | l :: ls, i + 1, xs => l :: addAt ls i xs

/-- Replace the buffer of level `i` (spec §4.2 `replaceItemsAt`). -/
def replaceAt : List (List Int) → ℕ → List Int → List (List Int)
  | [], _, _ => []
  | _ :: ls, 0, nl => nl :: ls
  | l :: ls, i + 1, nl => l :: replaceAt ls i nl

/-- The even-indexed elements of a list (indices 0, 2, 4, ...); the
odd-indexed elements are obtained by applying this to the tail. -/
def everyOther : List Int → List Int
  | [] => []
  | [a] => [a]
  | a :: _ :: rest => a :: everyOther rest

/-- Modelled from the spec (§4.3): one compaction of level `i`.  The
level's items are sorted, one unbiased bit selects the even- or
odd-indexed half, the chosen half is promoted to level `i + 1` (merging
with whatever resides there) and the current level is cleared.  When the
level holds an odd number of items one item (the least) is retained at
the level so that the total weight `n == Σ 2^level · |items|` (§3) is
preserved exactly. -/
def compactLevel (s : Sketch) (i : ℕ) : Sketch :=
  let items := s.levels.getD i []
  let sorted := List.insertionSort (· ≤ ·) items
  let keep := sorted.take (sorted.length % 2)
  let ev := sorted.drop (sorted.length % 2)
  let promoted := if s.bit then everyOther ev else everyOther ev.tail
  { s with levels := addAt (replaceAt s.levels i keep) (i + 1) promoted,
           bit := !s.bit }

/-- Modelled from the spec (§4.3, §4.5): walk the levels from the lowest
to the highest, compacting every level that exceeds its capacity; a
compaction promotes into the next level, which is examined next, so the
walk realizes the cascading compaction of §4.3.  `fuel` is a structural
bound on the number of levels visited. -/
def restoreFrom : ℕ → ℕ → Sketch → Sketch
  | 0, _, s => s
  | fuel + 1, i, s =>
    if i < s.levels.length then
      if capacity s.k i < (s.levels.getD i []).length then
        restoreFrom fuel (i + 1) (compactLevel s i)
      else
        restoreFrom fuel (i + 1) s
    else s

/-- Run the compaction walk from level 0 with ample fuel. -/
def restore (s : Sketch) : Sketch :=
  restoreFrom (s.levels.length + s.n + 1) 0 s

/-- Modelled from the spec (§4.4): `update` adjusts the extrema,
increments `n`, appends the value to level 0 and invokes the compactor
cascade. -/
def update (s : Sketch) (v : Int) : Sketch :=
  restore { s with
    n := s.n + 1,
    minValue := omin s.minValue (some v),
    maxValue := omax s.maxValue (some v),
    levels := addAt s.levels 0 [v] }

/-- Modelled from the tutorial's vectorized `update(array)` call: feeding
an array is m successive single-value updates. -/
def updateMany (s : Sketch) (xs : List Int) : Sketch :=
  xs.foldl update s

/-- Pointwise concatenation of two level sequences (spec §4.5: for each
level index present in the source, append the source's items at that
index into the target's corresponding level). -/
def mergeLevels : List (List Int) → List (List Int) → List (List Int)
  | ls, [] => ls
  | [], ms => ms
  | l :: ls, m :: ms => (l ++ m) :: mergeLevels ls ms

/-- Modelled from the spec (§4.5): merge absorbs the source's levels into
the target, adds the counts, takes componentwise extrema and then walks
the levels from lowest to highest compacting wherever capacity is
exceeded.  The merged sketch keeps the target's `k`. -/
def merge (t s : Sketch) : Sketch :=
  restore { t with
    n := t.n + s.n,
    minValue := omin t.minValue s.minValue,
    maxValue := omax t.maxValue s.maxValue,
    levels := mergeLevels t.levels s.levels }

/-- Total weight of the levels starting at level index `j`:
`Σ 2^index · |items|` (spec §3). -/
def totalWeightFrom : ℕ → List (List Int) → ℕ
  | _, [] => 0
  | j, l :: ls => 2 ^ j * l.length + totalWeightFrom (j + 1) ls

/-- The spec §3 weighted count of retained items: `Σ 2^level · |items|`. -/
def totalWeight (s : Sketch) : ℕ := totalWeightFrom 0 s.levels

/-- Weighted count of retained items `≤ v` in the levels starting at `j`. -/
def weightLEFrom : ℕ → List (List Int) → Int → ℕ
  | _, [], _ => 0
  | j, l :: ls, v => 2 ^ j * l.countP (fun x => decide (x ≤ v)) + weightLEFrom (j + 1) ls v

/-- Weighted count of retained items `≤ v` (the spec's glossary fixes the
rank boundary convention to "less than or equal"). -/
def weightLE (s : Sketch) (v : Int) : ℕ := weightLEFrom 0 s.levels v

/-- The conceptual stream of `(value, weight)` pairs of §4.6, with weight
`2^levelIndex`. -/
def flattenWeighted : ℕ → List (List Int) → List (Int × ℕ)
  | _, [] => []
  | j, l :: ls => l.map (fun v => (v, 2 ^ j)) ++ flattenWeighted (j + 1) ls

/-- Order on weighted pairs by value only (§4.6: ties broken by value
only). -/
def pairLE (a b : Int × ℕ) : Prop := a.1 ≤ b.1

instance : DecidableRel pairLE := fun a b => (inferInstance : Decidable (a.1 ≤ b.1))

instance : IsTotal (Int × ℕ) pairLE := ⟨fun a b => le_total a.1 b.1⟩

instance : IsTrans (Int × ℕ) pairLE := ⟨fun _ _ _ h1 h2 => le_trans h1 h2⟩

/-- The weighted view of all levels sorted by value (§4.6). -/
def sortedView (s : Sketch) : List (Int × ℕ) :=
  List.insertionSort pairLE (flattenWeighted 0 s.levels)

/-- Modelled from the spec (§4.6 `getQuantile`): walking the sorted
weighted view, return the smallest retained value whose cumulative weight
reaches the target. -/
def selectQ : List (Int × ℕ) → ℚ → Int
  | [], _ => 0
  | [(v, _)], _ => v
  | (v, w) :: x :: rest, t => if t ≤ (w : ℚ) then v else selectQ (x :: rest) (t - w)

/-- Count of items ever added (§4.4 `getN`; per §3 this bookkeeping field
is exact). -/
def getN (s : Sketch) : ℕ := s.n

/-- True iff `n == 0` (§3 data model). -/
def isEmpty (s : Sketch) : Bool := s.n == 0

/-- Exact minimum seen; signals the empty-state error when `n == 0`
(§4.4, §7). -/
def getMinValue (s : Sketch) : Except SketchError Int :=
  if s.n = 0 then .error .emptySketch
  else match s.minValue with
    | some v => .ok v
    | none => .error .emptySketch

/-- Exact maximum seen; signals the empty-state error when `n == 0`
(§4.4, §7). -/
def getMaxValue (s : Sketch) : Except SketchError Int :=
  if s.n = 0 then .error .emptySketch
  else match s.maxValue with
    | some v => .ok v
    | none => .error .emptySketch

/-- Modelled from the spec (§4.6): the weighted fraction of retained
items `≤ v`; errors on an empty sketch. -/
def getRank (s : Sketch) (v : Int) : Except SketchError ℚ :=
  if s.n = 0 then .error .emptySketch
  else .ok ((weightLE s v : ℚ) / (s.n : ℚ))

/-- Modelled from the spec (§4.6): the smallest retained value whose
cumulative weight fraction is at least the requested rank; errors on an
empty sketch or a rank outside `[0, 1]`. -/
def getQuantile (s : Sketch) (r : ℚ) : Except SketchError Int :=
  if s.n = 0 then .error .emptySketch
  else if r < 0 ∨ 1 < r then .error .invalidParameter
  else .ok (selectQ (sortedView s) (r * (s.n : ℚ)))

/-- Boolean test that a split-point list is strictly increasing (§4.6). -/
def strictIncB : List Int → Bool
  | [] => true
  | [_] => true
  | a :: b :: rest => decide (a < b) && strictIncB (b :: rest)

/-- The bucket masses of §4.6 `getPMF`: given the cumulative weight
`prev` reached at the previous split point, each bucket
`(splits[i-1], splits[i]]` carries the weight between consecutive split
points and the final bucket `(splits [last], ∞)` carries the remaining
weight, each divided by `n`. -/
def massList (s : Sketch) : List Int → ℚ → List ℚ
  | [], prev => [((totalWeight s : ℚ) - prev) / (s.n : ℚ)]
  | x :: xs, prev =>
    ((weightLE s x : ℚ) - prev) / (s.n : ℚ) :: massList s xs (weightLE s x : ℚ)

/-- Modelled from the spec (§4.6 `getPMF`): requires a non-empty sketch
and strictly increasing split points, and returns `len(splits) + 1`
bucket probabilities. -/
def getPMF (s : Sketch) (splits : List Int) : Except SketchError (List ℚ) :=
  if s.n = 0 then .error .emptySketch
  else if strictIncB splits then .ok (massList s splits 0)
  else .error .invalidParameter

/-- Running cumulative sums, used by `getCDF`. -/
def cumsum : ℚ → List ℚ → List ℚ
  | _, [] => []
  | acc, x :: xs => (acc + x) :: cumsum (acc + x) xs

/-- Modelled from the spec (§4.6 `getCDF`): the cumulative sum of the PMF
buckets, under the same input contract. -/
def getCDF (s : Sketch) (splits : List Int) : Except SketchError (List ℚ) :=
  match getPMF s splits with
  | .error e => .error e
  | .ok l => .ok (cumsum 0 l)

/-- Concatenation of the per-level item arrays, used by the codec. -/
def flattenLevels : List (List Int) → List Int
  | [] => []
  | l :: ls => l ++ flattenLevels ls

/-- Modelled from the spec (§4.7): serialization writes a fixed preamble
(format version, an emptiness flag, `k`), then `n`, the extrema, the
level boundary metadata (level count and per-level sizes) and the
concatenated per-level item arrays. -/
def serialize (s : Sketch) : List Int :=
  1 :: (if s.n = 0 then 1 else 0) :: (s.k : Int) :: (s.n : Int) ::
    s.minValue.getD 0 :: s.maxValue.getD 0 :: (s.levels.length : Int) ::
    (s.levels.map (fun l => (l.length : Int)) ++ flattenLevels s.levels)

/-- Split a flat item list back into per-level buffers of the recorded
sizes, rejecting buffers whose sizes are inconsistent with the payload. -/
def splitSizes : List ℕ → List Int → Option (List (List Int))
  | [], [] => some []
  | [], _ :: _ => none
  | sz :: szs, items =>
    if sz ≤ items.length then
      (splitSizes szs (items.drop sz)).map (fun ls => items.take sz :: ls)
    else none

/-- Modelled from the spec (§4.7): deserialization rejects unknown
version tags, truncated buffers and internally inconsistent metadata
with the distinct format error, and otherwise reconstructs the retained
state exactly. -/
def deserialize (buf : List Int) : Except SketchError Sketch :=
  match buf with
  | ver :: flag :: kk :: nn :: mn :: mx :: numLv :: rest =>
    if ver ≠ 1 then .error .formatError
    else if kk < 8 then .error .formatError
    else if nn < 0 then .error .formatError
    else if ¬ ((nn = 0 ∧ flag = 1) ∨ (nn ≠ 0 ∧ flag = 0)) then .error .formatError
    else
      let lens := rest.take numLv.toNat
      if lens.length ≠ numLv.toNat then .error .formatError
      else match splitSizes (lens.map Int.toNat) (rest.drop numLv.toNat) with
        | none => .error .formatError
        | some lvls =>
          .ok { k := kk.toNat, n := nn.toNat,
                minValue := if nn = 0 then none else some mn,
                maxValue := if nn = 0 then none else some mx,
                levels := lvls, bit := false }
  | _ => .error .formatError

/-- Modelled from the spec (§4.1): the theoretical normalized rank-error
bound.  The bound scales as `1 / sqrt k` — realized exactly in `ℚ` by a
strictly monotone one-step Newton refinement of the integer square root —
with a slightly larger documented constant for PMF-style queries than
for single-rank queries. -/
def qsqrt (k : ℕ) : ℚ :=
  ((k : ℚ) + (Nat.sqrt k : ℚ) + (Nat.sqrt k : ℚ) ^ 2) / (2 * (Nat.sqrt k : ℚ) + 1)

/-- Modelled from the spec (§4.1 `normalizedRankError`): see `qsqrt`. -/
def normalizedRankError (k : ℕ) (pmf : Bool) : ℚ :=
  (if pmf then 2447 / 1000 else 2296 / 1000) / qsqrt k

/-- Minimum of a list of values, `none` on the empty list. -/
def listMin : List Int → Option Int
  | [] => none
  | x :: xs =>
    match listMin xs with
    | none => some x
    | some m => some (min x m)

/-- Maximum of a list of values, `none` on the empty list. -/
def listMax : List Int → Option Int
  | [] => none
  | x :: xs =>
    match listMax xs with
    | none => some x
    | some m => some (max x m)

/-- The spec-side reference for exact mode (§8): sort the stream and read
the order statistic at position `⌈r · m⌉` (1-indexed, clamped at the
bottom for rank 0). -/
def quantileSpec (xs : List Int) (r : ℚ) : Int :=
  (List.insertionSort (· ≤ ·) xs).getD (⌈r * (xs.length : ℚ)⌉ - 1).toNat 0

/-- The spec-side reference rank in exact mode: the fraction of stream
items `≤ v`. -/
def rankSpec (xs : List Int) (v : Int) : ℚ :=
  (xs.countP (fun x => decide (x ≤ v)) : ℚ) / (xs.length : ℚ)

/-- Structural well-formedness: the accuracy parameter is at or above the
documented minimum, the item count equals the total retained weight
(spec §3 invariant) and the extrema are present exactly when the sketch
is non-empty. -/
def WF (s : Sketch) : Prop :=
  8 ≤ s.k ∧ s.n = totalWeight s ∧
    (s.minValue = none ↔ s.n = 0) ∧ (s.maxValue = none ↔ s.n = 0)

instance (s : Sketch) : Decidable (WF s) :=
  inferInstanceAs (Decidable (8 ≤ s.k ∧ s.n = totalWeight s ∧
    (s.minValue = none ↔ s.n = 0) ∧ (s.maxValue = none ↔ s.n = 0)))

/-- The sketch states reachable through the public mutating interface
(§3 lifecycle, §6): construction with a valid `k`, updates and merges. -/
inductive Reachable : Sketch → Prop where
  | init (k : ℕ) (hk : 8 ≤ k) : Reachable (construct k)
  | step (s : Sketch) (v : Int) (h : Reachable s) : Reachable (update s v)
  | mer (t s : Sketch) (ht : Reachable t) (hs : Reachable s) : Reachable (merge t s)

/-- The stream of `m` consecutive integers starting at `c`, used for the
spec's concrete merge scenario (§8). -/
def rangeStream (c : Int) (m : ℕ) : List Int :=
  List.map (fun j : ℕ => c + (j : Int)) (List.range m)

theorem compactLevel_k (s : Sketch) (i : ℕ) : (compactLevel s i).k = s.k := rfl

theorem compactLevel_n (s : Sketch) (i : ℕ) : (compactLevel s i).n = s.n := rfl

theorem compactLevel_minValue (s : Sketch) (i : ℕ) :
    (compactLevel s i).minValue = s.minValue := rfl

theorem compactLevel_maxValue (s : Sketch) (i : ℕ) :
    (compactLevel s i).maxValue = s.maxValue := rfl

theorem restoreFrom_k (fuel : ℕ) : ∀ (i : ℕ) (s : Sketch),
    (restoreFrom fuel i s).k = s.k := by
  induction fuel with
  | zero => intro i s; rfl
  | succ fuel ih =>
    intro i s
    simp only [restoreFrom]
    split
    · split
      · rw [ih]; rfl
      · exact ih _ _
    · rfl

theorem restoreFrom_n (fuel : ℕ) : ∀ (i : ℕ) (s : Sketch),
    (restoreFrom fuel i s).n = s.n := by
  induction fuel with
  | zero => intro i s; rfl
  | succ fuel ih =>
    intro i s
    simp only [restoreFrom]
    split
    · split
      · rw [ih]; rfl
      · exact ih _ _
    · rfl

theorem restoreFrom_minValue (fuel : ℕ) : ∀ (i : ℕ) (s : Sketch),
    (restoreFrom fuel i s).minValue = s.minValue := by
  induction fuel with
  | zero => intro i s; rfl
  | succ fuel ih =>
    intro i s
    simp only [restoreFrom]
    split
    · split
      · rw [ih]; rfl
      · exact ih _ _
    · rfl

theorem restoreFrom_maxValue (fuel : ℕ) : ∀ (i : ℕ) (s : Sketch),
    (restoreFrom fuel i s).maxValue = s.maxValue := by
  induction fuel with
  | zero => intro i s; rfl
  | succ fuel ih =>
    intro i s
    simp only [restoreFrom]
    split
    · split
      · rw [ih]; rfl
      · exact ih _ _
    · rfl

theorem restore_k (s : Sketch) : (restore s).k = s.k := restoreFrom_k _ _ _

theorem restore_n (s : Sketch) : (restore s).n = s.n := restoreFrom_n _ _ _

theorem restore_minValue (s : Sketch) : (restore s).minValue = s.minValue :=
  restoreFrom_minValue _ _ _

theorem restore_maxValue (s : Sketch) : (restore s).maxValue = s.maxValue :=
  restoreFrom_maxValue _ _ _

theorem update_k (s : Sketch) (v : Int) : (update s v).k = s.k := restore_k _

theorem update_n (s : Sketch) (v : Int) : (update s v).n = s.n + 1 := restore_n _

theorem update_minValue (s : Sketch) (v : Int) :
    (update s v).minValue = omin s.minValue (some v) := restore_minValue _

theorem update_maxValue (s : Sketch) (v : Int) :
    (update s v).maxValue = omax s.maxValue (some v) := restore_maxValue _

theorem merge_k (t s : Sketch) : (merge t s).k = t.k := restore_k _

theorem merge_n (t s : Sketch) : (merge t s).n = t.n + s.n := restore_n _

theorem merge_minValue (t s : Sketch) :
    (merge t s).minValue = omin t.minValue s.minValue := restore_minValue _

theorem merge_maxValue (t s : Sketch) :
    (merge t s).maxValue = omax t.maxValue s.maxValue := restore_maxValue _

theorem omin_none_right (a : Option Int) : omin a none = a := by
  cases a <;> rfl

theorem omax_none_right (a : Option Int) : omax a none = a := by
  cases a <;> rfl

theorem omin_assoc (a b c : Option Int) : omin (omin a b) c = omin a (omin b c) := by
  cases a <;> cases b <;> cases c <;> simp [omin, min_assoc]

theorem omax_assoc (a b c : Option Int) : omax (omax a b) c = omax a (omax b c) := by
  cases a <;> cases b <;> cases c <;> simp [omax, max_assoc]

theorem listMin_cons (x : Int) (xs : List Int) :
    listMin (x :: xs) = omin (some x) (listMin xs) := by
  cases h : listMin xs <;> simp [listMin, omin, h]

theorem listMax_cons (x : Int) (xs : List Int) :
    listMax (x :: xs) = omax (some x) (listMax xs) := by
  cases h : listMax xs <;> simp [listMax, omax, h]

theorem updateMany_nil (s : Sketch) : updateMany s [] = s := rfl

theorem updateMany_cons (s : Sketch) (x : Int) (xs : List Int) :
    updateMany s (x :: xs) = updateMany (update s x) xs := rfl

theorem updateMany_k (s : Sketch) (xs : List Int) : (updateMany s xs).k = s.k := by
  induction xs generalizing s with
  | nil => rfl
  | cons x xs ih => rw [updateMany_cons, ih, update_k]

theorem updateMany_n (s : Sketch) (xs : List Int) :
    (updateMany s xs).n = s.n + xs.length := by
  induction xs generalizing s with
  | nil => rfl
  | cons x xs ih =>
    rw [updateMany_cons, ih, update_n, List.length_cons]
    omega

theorem updateMany_minValue (s : Sketch) (xs : List Int) :
    (updateMany s xs).minValue = omin s.minValue (listMin xs) := by
  induction xs generalizing s with
  | nil => rw [updateMany_nil, listMin, omin_none_right]
  | cons x xs ih =>
    rw [updateMany_cons, ih, update_minValue, listMin_cons, omin_assoc]

theorem updateMany_maxValue (s : Sketch) (xs : List Int) :
    (updateMany s xs).maxValue = omax s.maxValue (listMax xs) := by
  induction xs generalizing s with
  | nil => rw [updateMany_nil, listMax, omax_none_right]
  | cons x xs ih =>
    rw [updateMany_cons, ih, update_maxValue, listMax_cons, omax_assoc]

theorem everyOther_length (l : List Int) :
    (everyOther l).length = (l.length + 1) / 2 := by
  induction l using everyOther.induct with
  | case1 => simp [everyOther]
  | case2 a => simp [everyOther]
  | case3 a b rest ih =>
    simp only [everyOther, List.length_cons, ih]
    omega

theorem totalWeightFrom_addAt (ls : List (List Int)) :
    ∀ (i j : ℕ) (xs : List Int),
      totalWeightFrom j (addAt ls i xs) =
        totalWeightFrom j ls + 2 ^ (j + i) * xs.length := by
  induction ls with
  | nil =>
    intro i
    induction i with
    | zero => intro j xs; simp [addAt, totalWeightFrom]
    | succ i ihi =>
      intro j xs
      have hji : j + 1 + i = j + (i + 1) := by omega
      simp only [addAt, totalWeightFrom, List.length_nil, Nat.mul_zero, Nat.zero_add,
        ihi (j + 1) xs, hji]
  | cons l ls ih =>
    intro i j xs
    cases i with
    | zero => simp [addAt, totalWeightFrom]; ring
    | succ i =>
      have hji : j + 1 + i = j + (i + 1) := by omega
      simp only [addAt, totalWeightFrom, ih i (j + 1) xs, hji]
      ring

theorem totalWeightFrom_replaceAt (ls : List (List Int)) :
    ∀ (i j : ℕ) (nl : List Int), i < ls.length →
      totalWeightFrom j (replaceAt ls i nl) + 2 ^ (j + i) * (ls.getD i []).length =
        totalWeightFrom j ls + 2 ^ (j + i) * nl.length := by
  induction ls with
  | nil => intro i j nl h; simp at h
  | cons l ls ih =>
    intro i j nl h
    cases i with
    | zero => simp [replaceAt, totalWeightFrom]; ring
    | succ i =>
      have hji : j + 1 + i = j + (i + 1) := by omega
      have h' : i < ls.length := by simpa using h
      have := ih i (j + 1) nl h'
      simp only [replaceAt, totalWeightFrom, List.getD_cons_succ]
      rw [hji] at this
      omega

theorem totalWeightFrom_mergeLevels (a : List (List Int)) :
    ∀ (b : List (List Int)) (j : ℕ),
      totalWeightFrom j (mergeLevels a b) = totalWeightFrom j a + totalWeightFrom j b := by
  induction a with
  | nil =>
    intro b j
    cases b <;> simp [mergeLevels, totalWeightFrom]
  | cons l ls ih =>
    intro b j
    cases b with
    | nil => simp [mergeLevels, totalWeightFrom]
    | cons m ms =>
      simp only [mergeLevels, totalWeightFrom, List.length_append, ih ms (j + 1)]
      ring

theorem compactLevel_totalWeight (s : Sketch) (i : ℕ) (hi : i < s.levels.length) :
    totalWeight (compactLevel s i) = totalWeight s := by
  have hperm := List.perm_insertionSort (· ≤ ·) (s.levels.getD i [])
  have hlen : (List.insertionSort (· ≤ ·) (s.levels.getD i [])).length =
      (s.levels.getD i []).length := hperm.length_eq
  set items := s.levels.getD i [] with hitems
  set sorted := List.insertionSort (· ≤ ·) items with hsorted
  set keep := sorted.take (sorted.length % 2) with hkeep
  set ev := sorted.drop (sorted.length % 2) with hev
  set promoted := (if s.bit then everyOther ev else everyOther ev.tail) with hprom
  have hkeepLen : keep.length = items.length % 2 := by
    rw [hkeep, List.length_take, hlen]
    omega
  have hevLen : ev.length = items.length - items.length % 2 := by
    rw [hev, List.length_drop, hlen]
  have hpromLen : promoted.length = items.length / 2 := by
    rw [hprom]
    split
    · rw [everyOther_length, hevLen]; omega
    · rw [everyOther_length, List.length_tail, hevLen]; omega
  have hcl : (compactLevel s i).levels =
      addAt (replaceAt s.levels i keep) (i + 1) promoted := rfl
  have h1 : totalWeightFrom 0 (addAt (replaceAt s.levels i keep) (i + 1) promoted) =
      totalWeightFrom 0 (replaceAt s.levels i keep) + 2 ^ (0 + (i + 1)) * promoted.length :=
    totalWeightFrom_addAt _ _ _ _
  have h2 : totalWeightFrom 0 (replaceAt s.levels i keep) + 2 ^ (0 + i) * items.length =
      totalWeightFrom 0 s.levels + 2 ^ (0 + i) * keep.length :=
    totalWeightFrom_replaceAt _ _ _ _ hi
  have hsplit : keep.length + 2 * promoted.length = items.length := by
    rw [hkeepLen, hpromLen]; omega
  have hpow : 2 ^ (0 + (i + 1)) = 2 * 2 ^ (0 + i) := by
    rw [Nat.zero_add, Nat.zero_add, pow_succ]; ring
  have key : 2 ^ (0 + i) * items.length =
      2 ^ (0 + i) * keep.length + 2 * 2 ^ (0 + i) * promoted.length := by
    rw [← hsplit]; ring
  rw [key] at h2
  unfold totalWeight
  rw [hcl, h1, hpow]
  omega

theorem restoreFrom_totalWeight (fuel : ℕ) : ∀ (i : ℕ) (s : Sketch),
    totalWeight (restoreFrom fuel i s) = totalWeight s := by
  induction fuel with
  | zero => intro i s; rfl
  | succ fuel ih =>
    intro i s
    simp only [restoreFrom]
    split
    · split
      · rw [ih, compactLevel_totalWeight _ _ (by assumption)]
      · exact ih _ _
    · rfl

theorem restore_totalWeight (s : Sketch) : totalWeight (restore s) = totalWeight s :=
  restoreFrom_totalWeight _ _ _

theorem update_totalWeight (s : Sketch) (v : Int) :
    totalWeight (update s v) = totalWeight s + 1 := by
  unfold update
  rw [restore_totalWeight]
  unfold totalWeight
  simp [totalWeightFrom_addAt]

theorem merge_totalWeight (t s : Sketch) :
    totalWeight (merge t s) = totalWeight t + totalWeight s := by
  unfold merge
  rw [restore_totalWeight]
  unfold totalWeight
  simp [totalWeightFrom_mergeLevels]

theorem omin_eq_none (a b : Option Int) : omin a b = none ↔ a = none ∧ b = none := by
  cases a <;> cases b <;> simp [omin]

theorem omax_eq_none (a b : Option Int) : omax a b = none ↔ a = none ∧ b = none := by
  cases a <;> cases b <;> simp [omax]

theorem construct_wf (k : ℕ) (hk : 8 ≤ k) : WF (construct k) := by
  refine ⟨hk, ?_, ?_, ?_⟩ <;> simp [construct, totalWeight, totalWeightFrom]

theorem update_wf (s : Sketch) (v : Int) (h : WF s) : WF (update s v) := by
  obtain ⟨hk, hw, hmin, hmax⟩ := h
  refine ⟨?_, ?_, ?_, ?_⟩
  · rw [update_k]; exact hk
  · rw [update_n, update_totalWeight, hw]
  · rw [update_n, update_minValue]
    cases h : s.minValue <;> simp [omin]
  · rw [update_n, update_maxValue]
    cases h : s.maxValue <;> simp [omax]

theorem merge_wf (t s : Sketch) (ht : WF t) (hs : WF s) : WF (merge t s) := by
  obtain ⟨htk, htw, htmin, htmax⟩ := ht
  obtain ⟨hsk, hsw, hsmin, hsmax⟩ := hs
  refine ⟨?_, ?_, ?_, ?_⟩
  · rw [merge_k]; exact htk
  · rw [merge_n, merge_totalWeight, htw, hsw]
  · rw [merge_n, merge_minValue, omin_eq_none, htmin, hsmin]
    omega
  · rw [merge_n, merge_maxValue, omax_eq_none, htmax, hsmax]
    omega

theorem reachable_wf (s : Sketch) (h : Reachable s) : WF s := by
  induction h with
  | init k hk => exact construct_wf k hk
  | step s v _ ih => exact update_wf s v ih
  | mer t s _ _ iht ihs => exact merge_wf t s iht ihs

theorem restoreFrom_noop (fuel : ℕ) : ∀ (i : ℕ) (s : Sketch),
    (∀ j, (s.levels.getD j []).length ≤ capacity s.k j) →
    restoreFrom fuel i s = s := by
  induction fuel with
  | zero => intro i s _; rfl
  | succ fuel ih =>
    intro i s hcap
    simp only [restoreFrom]
    split
    · rw [if_neg (by exact Nat.not_lt.mpr (hcap i)), ih _ _ hcap]
    · rfl

theorem update_exact (s : Sketch) (l : List Int) (v : Int)
    (hl : s.levels = [l]) (hcap : l.length < capacity s.k 0) :
    (update s v).levels = [l ++ [v]] := by
  unfold update restore
  rw [hl]
  have haddAt : addAt [l] 0 [v] = [l ++ [v]] := rfl
  rw [haddAt]
  rw [restoreFrom_noop]
  intro j
  cases j with
  | zero =>
    simpa using hcap
  | succ j =>
    simp [List.getD, capacity]

theorem updateMany_exact (xs : List Int) : ∀ (s : Sketch) (l : List Int),
    s.levels = [l] → l.length + xs.length ≤ capacity s.k 0 →
    (updateMany s xs).levels = [l ++ xs] := by
  induction xs with
  | nil => intro s l hl _; simpa [updateMany_nil] using hl
  | cons x xs ih =>
    intro s l hl hcap
    rw [updateMany_cons]
    have hstep : (update s x).levels = [l ++ [x]] := by
      refine update_exact s l x hl ?_
      simp only [List.length_cons] at hcap
      omega
    have hk : (update s x).k = s.k := update_k s x
    have := ih (update s x) (l ++ [x]) hstep (by
      rw [hk, List.length_append]
      simp only [List.length_cons, List.length_nil] at hcap ⊢
      omega)
    rw [this, List.append_assoc]
    rfl

theorem exactSketch_levels (k : ℕ) (xs : List Int)
    (hcap : xs.length ≤ capacity k 0) :
    (updateMany (construct k) xs).levels = [xs] := by
  have := updateMany_exact xs (construct k) [] rfl (by simpa [construct] using hcap)
  simpa using this

theorem exactSketch_n (k : ℕ) (xs : List Int) :
    (updateMany (construct k) xs).n = xs.length := by
  rw [updateMany_n]
  simp [construct]

theorem selectQ_mem : ∀ (l : List (Int × ℕ)) (t : ℚ), l ≠ [] →
    ∃ p ∈ l, selectQ l t = p.1 := by
  intro l
  induction l with
  | nil => intro t h; exact absurd rfl h
  | cons hd tail ih =>
    intro t _
    obtain ⟨v, w⟩ := hd
    cases tail with
    | nil => exact ⟨(v, w), by simp, by simp [selectQ]⟩
    | cons x rest =>
      by_cases hle : t ≤ (w : ℚ)
      · exact ⟨(v, w), by simp, by simp [selectQ, hle]⟩
      · obtain ⟨p, hp, hep⟩ := ih (t - w) (by simp)
        exact ⟨p, by simp [hp], by simp [selectQ, hle, hep]⟩

theorem selectQ_mono : ∀ (l : List (Int × ℕ)), List.Sorted pairLE l →
    ∀ (t1 t2 : ℚ), t1 ≤ t2 → selectQ l t1 ≤ selectQ l t2 := by
  intro l
  induction l with
  | nil => intro _ t1 t2 _; exact le_refl _
  | cons hd tail ih =>
    intro hs t1 t2 h12
    obtain ⟨v, w⟩ := hd
    cases tail with
    | nil => simp [selectQ]
    | cons x rest =>
      by_cases h2 : t2 ≤ (w : ℚ)
      · have h1 : t1 ≤ (w : ℚ) := le_trans h12 h2
        simp [selectQ, h1, h2]
      · by_cases h1 : t1 ≤ (w : ℚ)
        · simp only [selectQ, if_pos h1, if_neg h2]
          obtain ⟨p, hp, hep⟩ := selectQ_mem (x :: rest) (t2 - w) (by simp)
          rw [hep]
          exact (List.sorted_cons.mp hs).1 p hp
        · simp only [selectQ, if_neg h1, if_neg h2]
          exact ih (List.sorted_cons.mp hs).2 _ _ (by linarith)

theorem selectQ_ones : ∀ (l : List Int) (t : ℚ), l ≠ [] → 0 ≤ t → t ≤ l.length →
    selectQ (l.map (fun v => (v, 1))) t = l.getD (⌈t⌉ - 1).toNat 0 := by
  intro l
  induction l with
  | nil => intro t h; exact absurd rfl h
  | cons a tail ih =>
    intro t _ h0 hle
    cases tail with
    | nil =>
      have hceil : ⌈t⌉ ≤ 1 := by
        rw [Int.ceil_le]
        simpa using hle
      have : (⌈t⌉ - 1).toNat = 0 := by omega
      simp [selectQ, this]
    | cons b rest =>
      by_cases h1 : t ≤ 1
      · have hceil : ⌈t⌉ ≤ 1 := by
          rw [Int.ceil_le]
          exact_mod_cast h1
        have hidx : (⌈t⌉ - 1).toNat = 0 := by omega
        simp [selectQ, h1, hidx]
      · push_neg at h1
        have hceil : 2 ≤ ⌈t⌉ := by
          have : (1 : ℤ) < ⌈t⌉ := by
            rw [Int.lt_ceil]
            exact_mod_cast h1
          omega
        have hrec := ih (t - 1) (by simp) (by linarith)
          (by simp only [List.length_cons] at hle ⊢; push_cast at hle ⊢; linarith)
        have hc1 : ⌈t - 1⌉ = ⌈t⌉ - 1 := Int.ceil_sub_one t
        have hidx : (⌈t⌉ - 1).toNat = ((⌈t - 1⌉ - 1).toNat) + 1 := by
          rw [hc1]; omega
        have hne : ¬ t ≤ ((1 : ℕ) : ℚ) := by push_cast; linarith
        simp only [List.map_cons, selectQ, if_neg hne, hidx, List.getD_cons_succ]
        push_cast at hrec ⊢
        exact hrec

theorem orderedInsert_map_pair (a : Int) : ∀ (l : List Int),
    List.orderedInsert pairLE (a, 1) (l.map (fun v => (v, 1))) =
      (List.orderedInsert (· ≤ ·) a l).map (fun v => (v, 1)) := by
  intro l
  induction l with
  | nil => rfl
  | cons b tail ih =>
    by_cases h : a ≤ b
    · have hp : pairLE (a, 1) (b, 1) := h
      simp [List.orderedInsert, hp, h]
    · have hp : ¬ pairLE (a, 1) (b, 1) := h
      simp [List.orderedInsert, hp, h, ih]

theorem insertionSort_map_pair : ∀ (l : List Int),
    List.insertionSort pairLE (l.map (fun v => (v, 1))) =
      (List.insertionSort (· ≤ ·) l).map (fun v => (v, 1)) := by
  intro l
  induction l with
  | nil => rfl
  | cons a tail ih =>
    simp only [List.map_cons, List.insertionSort, ih, orderedInsert_map_pair]

theorem massList_length (s : Sketch) : ∀ (xs : List Int) (prev : ℚ),
    (massList s xs prev).length = xs.length + 1 := by
  intro xs
  induction xs with
  | nil => intro prev; rfl
  | cons x tail ih => intro prev; simp [massList, ih]

theorem massList_sum (s : Sketch) : ∀ (xs : List Int) (prev : ℚ),
    (massList s xs prev).sum = ((totalWeight s : ℚ) - prev) / (s.n : ℚ) := by
  intro xs
  induction xs with
  | nil => intro prev; simp [massList]
  | cons x tail ih =>
    intro prev
    simp only [massList, List.sum_cons, ih, div_add_div_same]
    ring_nf

theorem cumsum_length : ∀ (l : List ℚ) (acc : ℚ), (cumsum acc l).length = l.length := by
  intro l
  induction l with
  | nil => intro acc; rfl
  | cons x tail ih => intro acc; simp [cumsum, ih]

theorem qsqrt_pos (k : ℕ) (hk : 1 ≤ k) : 0 < qsqrt k := by
  unfold qsqrt
  apply div_pos
  · have h1 : (1 : ℚ) ≤ (k : ℚ) := by exact_mod_cast hk
    have hs : (0 : ℚ) ≤ (Nat.sqrt k : ℚ) := Nat.cast_nonneg _
    nlinarith
  · positivity

theorem qsqrt_lt_succ (k : ℕ) (hk : 1 ≤ k) : qsqrt k < qsqrt (k + 1) := by
  have hs1 : Nat.sqrt k ≤ Nat.sqrt (k + 1) := Nat.sqrt_le_sqrt (Nat.le_succ k)
  have hs2 : Nat.sqrt (k + 1) ≤ Nat.sqrt k + 1 := Nat.sqrt_succ_le_succ_sqrt k
  have hden : (0 : ℚ) < 2 * (Nat.sqrt k : ℚ) + 1 := by positivity
  rcases Nat.eq_or_lt_of_le hs1 with heq | hlt
  · unfold qsqrt
    rw [← heq, div_lt_div_iff hden hden]
    have hs : (0 : ℚ) ≤ (Nat.sqrt k : ℚ) := Nat.cast_nonneg _
    push_cast
    nlinarith
  · have hsq : Nat.sqrt (k + 1) = Nat.sqrt k + 1 := by omega
    have hge : (Nat.sqrt k + 1) * (Nat.sqrt k + 1) ≤ k + 1 := by
      have h := Nat.sqrt_le (k + 1)
      rw [hsq] at h
      exact h
    have hlt2 : k < (Nat.sqrt k + 1) * (Nat.sqrt k + 1) := Nat.lt_succ_sqrt k
    have hexp : (Nat.sqrt k + 1) * (Nat.sqrt k + 1) =
        Nat.sqrt k * Nat.sqrt k + 2 * Nat.sqrt k + 1 := by ring
    rw [hexp] at hge hlt2
    have hkeq : k = Nat.sqrt k * Nat.sqrt k + 2 * Nat.sqrt k := by omega
    have hden2 : (0 : ℚ) < 2 * ((Nat.sqrt k : ℚ) + 1) + 1 := by positivity
    unfold qsqrt
    rw [hsq]
    push_cast
    rw [div_lt_div_iff hden (by push_cast at hden2 ⊢; linarith)]
    have hc : (k : ℚ) = (Nat.sqrt k : ℚ) * (Nat.sqrt k : ℚ) + 2 * (Nat.sqrt k : ℚ) := by
      exact_mod_cast hkeq
    have hs : (0 : ℚ) ≤ (Nat.sqrt k : ℚ) := Nat.cast_nonneg _
    rw [hc]
    ring_nf
    nlinarith

theorem qsqrt_lt_of_lt (k1 k2 : ℕ) (h1 : 1 ≤ k1) (h : k1 < k2) :
    qsqrt k1 < qsqrt k2 := by
  have h' : k1 + 1 ≤ k2 := h
  clear h
  induction k2, h' using Nat.le_induction with
  | base => exact qsqrt_lt_succ k1 h1
  | succ m hm ih => exact lt_trans ih (qsqrt_lt_succ m (by omega))

theorem take_len_append (a b : List Int) : (a ++ b).take a.length = a := by
  induction a with
  | nil => rfl
  | cons x xs ih => simp [ih]

theorem drop_len_append (a b : List Int) : (a ++ b).drop a.length = b := by
  induction a with
  | nil => rfl
  | cons x xs ih => simp [ih]

theorem splitSizes_flatten : ∀ (lvls : List (List Int)),
    splitSizes (lvls.map List.length) (flattenLevels lvls) = some lvls := by
  intro lvls
  induction lvls with
  | nil => rfl
  | cons l ls ih =>
    simp only [List.map_cons, flattenLevels, splitSizes]
    rw [if_pos (by simp)]
    rw [take_len_append, drop_len_append, ih]
    rfl

theorem map_length_toNat (lvls : List (List Int)) :
    (lvls.map (fun l => ((l.length : Int)))).map Int.toNat = lvls.map List.length := by
  rw [List.map_map]
  apply List.map_congr_left
  intro l _
  simp

theorem deserialize_serialize (s : Sketch) (h : WF s) :
    deserialize (serialize s) = .ok { s with bit := false } := by
  obtain ⟨hk, hw, hmin, hmax⟩ := h
  have hk8 : ¬ ((s.k : Int) < 8) := by
    rw [not_lt]
    exact_mod_cast hk
  have hn0 : ¬ ((s.n : Int) < 0) := by
    rw [not_lt]
    exact Int.natCast_nonneg s.n
  have hlenTN : ((s.levels.length : Int)).toNat = s.levels.length := Int.toNat_natCast _
  have hlensLen : (s.levels.map (fun l => ((l.length : Int)))).length = s.levels.length := by
    simp
  have htake : (s.levels.map (fun l => ((l.length : Int))) ++
      flattenLevels s.levels).take s.levels.length =
      s.levels.map (fun l => ((l.length : Int))) := by
    conv_lhs => rw [← hlensLen]
    exact take_len_append _ _
  have hdrop : (s.levels.map (fun l => ((l.length : Int))) ++
      flattenLevels s.levels).drop s.levels.length = flattenLevels s.levels := by
    conv_lhs => rw [← hlensLen]
    exact drop_len_append _ _
  by_cases hn : s.n = 0
  · have hmn : s.minValue = none := hmin.mpr hn
    have hmx : s.maxValue = none := hmax.mpr hn
    simp only [serialize, deserialize, hn, hmn, hmx, if_pos rfl, Nat.cast_zero,
      hlenTN, htake, hdrop, hlensLen, map_length_toNat, splitSizes_flatten]
    simp [hk8, hn, hmn, hmx, Int.toNat_natCast]
  · have hcast : ((s.n : Int)) ≠ 0 := by exact_mod_cast hn
    obtain ⟨mv, hmv⟩ : ∃ mv, s.minValue = some mv := by
      cases hsm : s.minValue
      · exact absurd (hmin.mp hsm) hn
      · exact ⟨_, rfl⟩
    obtain ⟨xv, hxv⟩ : ∃ xv, s.maxValue = some xv := by
      cases hsx : s.maxValue
      · exact absurd (hmax.mp hsx) hn
      · exact ⟨_, rfl⟩
    simp only [serialize, deserialize, if_neg hn, hmv, hxv,
      hlenTN, htake, hdrop, hlensLen, map_length_toNat, splitSizes_flatten]
    simp [hk8, hn0, hcast, hn, hmv, hxv, Int.toNat_natCast]

theorem getRank_bitFalse (s : Sketch) (v : Int) :
    getRank { s with bit := false } v = getRank s v := rfl

theorem getQuantile_bitFalse (s : Sketch) (r : ℚ) :
    getQuantile { s with bit := false } r = getQuantile s r := rfl

theorem weightLE_bitFalse (s : Sketch) (v : Int) :
    weightLE { s with bit := false } v = weightLE s v := rfl

theorem massList_bitFalse (s : Sketch) : ∀ (splits : List Int) (prev : ℚ),
    massList { s with bit := false } splits prev = massList s splits prev := by
  intro splits
  induction splits with
  | nil => intro prev; rfl
  | cons x xs ih =>
    intro prev
    simp only [massList, ih, weightLE_bitFalse]

theorem getPMF_bitFalse (s : Sketch) (splits : List Int) :
    getPMF { s with bit := false } splits = getPMF s splits := by
  unfold getPMF
  by_cases hn : s.n = 0
  · simp [hn]
  · by_cases hs : strictIncB splits <;> simp [hn, hs, massList_bitFalse]

theorem getCDF_bitFalse (s : Sketch) (splits : List Int) :
    getCDF { s with bit := false } splits = getCDF s splits := by
  unfold getCDF
  rw [getPMF_bitFalse]

theorem getMinValue_bitFalse (s : Sketch) :
    getMinValue { s with bit := false } = getMinValue s := rfl

theorem getMaxValue_bitFalse (s : Sketch) :
    getMaxValue { s with bit := false } = getMaxValue s := rfl

theorem getN_def (s : Sketch) : getN s = s.n := rfl

theorem getMinValue_eq (s : Sketch) (m : Int) (hn : s.n ≠ 0)
    (hm : s.minValue = some m) : getMinValue s = .ok m := by
  simp [getMinValue, hn, hm]

theorem getMaxValue_eq (s : Sketch) (m : Int) (hn : s.n ≠ 0)
    (hm : s.maxValue = some m) : getMaxValue s = .ok m := by
  simp [getMaxValue, hn, hm]

theorem exact_getQuantile (k : ℕ) (xs : List Int) (r : ℚ) (hne : xs ≠ [])
    (hcap : xs.length ≤ capacity k 0) (h0 : 0 ≤ r) (h1 : r ≤ 1) :
    getQuantile (updateMany (construct k) xs) r = .ok (quantileSpec xs r) := by
  have hn : (updateMany (construct k) xs).n = xs.length := exactSketch_n k xs
  have hlen : xs.length ≠ 0 := by
    intro h
    exact hne (List.eq_nil_of_length_eq_zero h)
  have hlev : (updateMany (construct k) xs).levels = [xs] := exactSketch_levels k xs hcap
  have hview : sortedView (updateMany (construct k) xs) =
      (List.insertionSort (· ≤ ·) xs).map (fun v => (v, 1)) := by
    unfold sortedView
    rw [hlev]
    have : flattenWeighted 0 [xs] = xs.map (fun v => (v, 1)) := by
      simp [flattenWeighted]
    rw [this, insertionSort_map_pair]
  have hsortlen : (List.insertionSort (· ≤ ·) xs).length = xs.length :=
    (List.perm_insertionSort (· ≤ ·) xs).length_eq
  have hsne : List.insertionSort (· ≤ ·) xs ≠ [] := by
    intro h
    rw [h] at hsortlen
    exact hlen hsortlen.symm
  have hz : (0 : ℚ) ≤ r * (xs.length : ℚ) := by positivity
  have hub : r * (xs.length : ℚ) ≤ ((List.insertionSort (· ≤ ·) xs).length : ℚ) := by
    rw [hsortlen]
    calc r * (xs.length : ℚ) ≤ 1 * (xs.length : ℚ) :=
          mul_le_mul_of_nonneg_right h1 (Nat.cast_nonneg _)
      _ = (xs.length : ℚ) := one_mul _
  unfold getQuantile
  rw [if_neg (by rw [hn]; exact hlen)]
  rw [if_neg (by push_neg; exact ⟨h0, h1⟩)]
  rw [hview, hn]
  rw [selectQ_ones _ _ hsne hz hub]
  unfold quantileSpec
  rfl

theorem exact_getRank (k : ℕ) (xs : List Int) (v : Int) (hne : xs ≠ [])
    (hcap : xs.length ≤ capacity k 0) :
    getRank (updateMany (construct k) xs) v = .ok (rankSpec xs v) := by
  have hn : (updateMany (construct k) xs).n = xs.length := exactSketch_n k xs
  have hlen : xs.length ≠ 0 := by
    intro h
    exact hne (List.eq_nil_of_length_eq_zero h)
  have hlev : (updateMany (construct k) xs).levels = [xs] := exactSketch_levels k xs hcap
  have hwle : weightLE (updateMany (construct k) xs) v =
      xs.countP (fun x => decide (x ≤ v)) := by
    unfold weightLE
    rw [hlev]
    simp [weightLEFrom]
  unfold getRank
  rw [if_neg (by rw [hn]; exact hlen)]
  rw [hwle, hn]
  rfl

theorem rangeStream_zero (c : Int) : rangeStream c 0 = [] := rfl

theorem rangeStream_succ (c : Int) (m : ℕ) :
    rangeStream c (m + 1) = c :: rangeStream (c + 1) m := by
  unfold rangeStream
  rw [List.range_succ_eq_map]
  simp only [List.map_cons, Int.natCast_zero, add_zero, List.map_map]
  congr 1
  apply List.map_congr_left
  intro j _
  show c + ((j + 1 : ℕ) : Int) = c + 1 + (j : Int)
  push_cast
  ring

theorem rangeStream_length (c : Int) (m : ℕ) : (rangeStream c m).length = m := by
  unfold rangeStream
  rw [List.length_map, List.length_range]

theorem listMin_rangeStream : ∀ (m : ℕ) (c : Int), 1 ≤ m →
    listMin (rangeStream c m) = some c := by
  intro m
  induction m with
  | zero => intro c h; omega
  | succ m ih =>
    intro c _
    rw [rangeStream_succ, listMin_cons]
    cases m with
    | zero => rfl
    | succ m' =>
      rw [ih (c + 1) (by omega)]
      have : min c (c + 1) = c := min_eq_left (by omega)
      simp [omin, this]

theorem listMax_rangeStream : ∀ (m : ℕ) (c : Int), 1 ≤ m →
    listMax (rangeStream c m) = some (c + (m : Int) - 1) := by
  intro m
  induction m with
  | zero => intro c h; omega
  | succ m ih =>
    intro c _
    rw [rangeStream_succ, listMax_cons]
    cases m with
    | zero => simp [rangeStream_zero, listMax, omax]
    | succ m' =>
      rw [ih (c + 1) (by omega)]
      have hmax : max c (c + 1 + ((m' + 1 : ℕ) : Int) - 1) =
          c + 1 + ((m' + 1 : ℕ) : Int) - 1 := by
        apply max_eq_right
        have : (0 : Int) ≤ ((m' + 1 : ℕ) : Int) := by positivity
        omega
      simp only [omax, hmax]
      congr 1
      push_cast
      ring

/-- C1: Exact-mode correctness: a stream of `m ≤ level-0 capacity` items fed
via update answers `getQuantile` and `getRank` exactly as sorting the stream
and reading order statistics; concretely, with `k = 200` and the stream
`1..10`, `getQuantile (1/2) = 5` (the fixed ceiling boundary convention),
`getMinValue = 1` and `getMaxValue = 10`. -/
theorem exact_mode_correctness :
    (∀ (k : ℕ) (xs : List Int) (r : ℚ), xs ≠ [] → xs.length ≤ capacity k 0 →
      0 ≤ r → r ≤ 1 →
      getQuantile (updateMany (construct k) xs) r = .ok (quantileSpec xs r)) ∧
    (∀ (k : ℕ) (xs : List Int) (v : Int), xs ≠ [] → xs.length ≤ capacity k 0 →
      getRank (updateMany (construct k) xs) v = .ok (rankSpec xs v)) ∧
    getQuantile (updateMany (construct 200) [1, 2, 3, 4, 5, 6, 7, 8, 9, 10]) (1 / 2) =
      .ok 5 ∧
    getMinValue (updateMany (construct 200) [1, 2, 3, 4, 5, 6, 7, 8, 9, 10]) = .ok 1 ∧
    getMaxValue (updateMany (construct 200) [1, 2, 3, 4, 5, 6, 7, 8, 9, 10]) = .ok 10 := by
  refine ⟨fun k xs r hne hcap h0 h1 => exact_getQuantile k xs r hne hcap h0 h1,
    fun k xs v hne hcap => exact_getRank k xs v hne hcap, ?_, ?_, ?_⟩
  · rw [exact_getQuantile 200 [1, 2, 3, 4, 5, 6, 7, 8, 9, 10] (1 / 2)
      (by decide) (by decide) (by norm_num) (by norm_num)]
    have h5 : (1 / 2 : ℚ) * (([1, 2, 3, 4, 5, 6, 7, 8, 9, 10] : List Int).length : ℚ) =
        ((5 : ℤ) : ℚ) := by norm_num
    unfold quantileSpec
    rw [h5, Int.ceil_intCast]
    exact congrArg Except.ok (by decide)
  · exact getMinValue_eq _ 1 (by decide) (by decide)
  · exact getMaxValue_eq _ 10 (by decide) (by decide)

/-- C1 witness: the exact-mode theorem applied to the concrete stream
`[2, 1]` with `k = 8` and rank `0`, all hypotheses discharged. -/
theorem exact_mode_correctness_witness :
    ([2, 1] : List Int) ≠ [] ∧ ([2, 1] : List Int).length ≤ capacity 8 0 ∧
    ((0 : ℚ) ≤ 0 ∧ (0 : ℚ) ≤ 1) ∧
    getQuantile (updateMany (construct 8) [2, 1]) 0 = .ok (quantileSpec [2, 1] 0) ∧
    getRank (updateMany (construct 8) [2, 1]) 3 = .ok (rankSpec [2, 1] 3) :=
  ⟨by decide, by decide, ⟨le_refl 0, zero_le_one⟩,
    exact_mode_correctness.1 8 [2, 1] 0 (by decide) (by decide) (le_refl 0) zero_le_one,
    exact_mode_correctness.2.1 8 [2, 1] 3 (by decide) (by decide)⟩

/-- C2: Serialization round-trip: for every well-formed sketch state,
deserializing its serialization succeeds and yields a sketch with the same
retained items, level structure and scalar state, hence answering every
query (`getN`, `isEmpty`, `getMinValue`, `getMaxValue`, `getRank`,
`getQuantile`, `getPMF`, `getCDF`) identically. -/
theorem serialization_round_trip (s : Sketch) (h : WF s) :
    ∃ s2, deserialize (serialize s) = .ok s2 ∧
      getN s2 = getN s ∧ isEmpty s2 = isEmpty s ∧
      getMinValue s2 = getMinValue s ∧ getMaxValue s2 = getMaxValue s ∧
      (∀ v, getRank s2 v = getRank s v) ∧
      (∀ r, getQuantile s2 r = getQuantile s r) ∧
      (∀ sp, getPMF s2 sp = getPMF s sp) ∧
      (∀ sp, getCDF s2 sp = getCDF s sp) ∧
      s2.levels = s.levels ∧ s2.n = s.n ∧ s2.k = s.k :=
  ⟨{ s with bit := false }, deserialize_serialize s h, rfl, rfl,
    getMinValue_bitFalse s, getMaxValue_bitFalse s,
    fun v => getRank_bitFalse s v, fun r => getQuantile_bitFalse s r,
    fun sp => getPMF_bitFalse s sp, fun sp => getCDF_bitFalse s sp, rfl, rfl, rfl⟩

/-- C2 witness: the round-trip theorem applied to the concrete sketch
holding the single item 3, its well-formedness discharged by computation. -/
theorem serialization_round_trip_witness :
    WF (update (construct 8) 3) ∧
    (∃ s2, deserialize (serialize (update (construct 8) 3)) = .ok s2 ∧
      getN s2 = getN (update (construct 8) 3) ∧
      isEmpty s2 = isEmpty (update (construct 8) 3) ∧
      getMinValue s2 = getMinValue (update (construct 8) 3) ∧
      getMaxValue s2 = getMaxValue (update (construct 8) 3) ∧
      (∀ v, getRank s2 v = getRank (update (construct 8) 3) v) ∧
      (∀ r, getQuantile s2 r = getQuantile (update (construct 8) 3) r) ∧
      (∀ sp, getPMF s2 sp = getPMF (update (construct 8) 3) sp) ∧
      (∀ sp, getCDF s2 sp = getCDF (update (construct 8) 3) sp) ∧
      s2.levels = (update (construct 8) 3).levels ∧
      s2.n = (update (construct 8) 3).n ∧ s2.k = (update (construct 8) 3).k) :=
  ⟨by decide, serialization_round_trip (update (construct 8) 3) (by decide)⟩

/-- C3: Merge aggregate postcondition: for all sketches, after a merge the
count is the sum of counts, the merged sketch keeps the target's `k`, and
the extrema are the componentwise extrema; in the concrete scenario of two
`k = 200` sketches built from the disjoint ranges `[0, 999]` and
`[1000, 1999]`, the merge answers `getN = 2000`, `getMinValue = 0` and
`getMaxValue = 1999`. -/
theorem merge_aggregates :
    (∀ t s : Sketch, (merge t s).n = t.n + s.n ∧ (merge t s).k = t.k ∧
      (merge t s).minValue = omin t.minValue s.minValue ∧
      (merge t s).maxValue = omax t.maxValue s.maxValue) ∧
    getN (merge (updateMany (construct 200) (rangeStream 0 1000))
      (updateMany (construct 200) (rangeStream 1000 1000))) = 2000 ∧
    getMinValue (merge (updateMany (construct 200) (rangeStream 0 1000))
      (updateMany (construct 200) (rangeStream 1000 1000))) = .ok 0 ∧
    getMaxValue (merge (updateMany (construct 200) (rangeStream 0 1000))
      (updateMany (construct 200) (rangeStream 1000 1000))) = .ok 1999 := by
  have hTn : (updateMany (construct 200) (rangeStream 0 1000)).n = 1000 := by
    rw [updateMany_n, rangeStream_length]
    rfl
  have hSn : (updateMany (construct 200) (rangeStream 1000 1000)).n = 1000 := by
    rw [updateMany_n, rangeStream_length]
    rfl
  have hTmin : (updateMany (construct 200) (rangeStream 0 1000)).minValue = some 0 := by
    rw [updateMany_minValue, listMin_rangeStream 1000 0 (by norm_num)]
    rfl
  have hSmin : (updateMany (construct 200) (rangeStream 1000 1000)).minValue =
      some 1000 := by
    rw [updateMany_minValue, listMin_rangeStream 1000 1000 (by norm_num)]
    rfl
  have hTmax : (updateMany (construct 200) (rangeStream 0 1000)).maxValue =
      some 999 := by
    rw [updateMany_maxValue, listMax_rangeStream 1000 0 (by norm_num)]
    norm_num
    rfl
  have hSmax : (updateMany (construct 200) (rangeStream 1000 1000)).maxValue =
      some 1999 := by
    rw [updateMany_maxValue, listMax_rangeStream 1000 1000 (by norm_num)]
    norm_num
    rfl
  have hmergen : (merge (updateMany (construct 200) (rangeStream 0 1000))
      (updateMany (construct 200) (rangeStream 1000 1000))).n = 2000 := by
    rw [merge_n, hTn, hSn]
  refine ⟨fun t s => ⟨merge_n t s, merge_k t s, merge_minValue t s, merge_maxValue t s⟩,
    by rw [getN_def]; exact hmergen, ?_, ?_⟩
  · refine getMinValue_eq _ 0 (by rw [hmergen]; norm_num) ?_
    rw [merge_minValue, hTmin, hSmin]
    decide
  · refine getMaxValue_eq _ 1999 (by rw [hmergen]; norm_num) ?_
    rw [merge_maxValue, hTmax, hSmax]
    decide

/-- C4: PMF contract: on a non-empty well-formed sketch with strictly
increasing split points, `getPMF` succeeds and returns exactly
`len splits + 1` bucket probabilities whose sum is exactly 1 (the model
uses exact rational arithmetic, so no floating tolerance is needed). -/
theorem pmf_contract (s : Sketch) (splits : List Int) (h : WF s) (hn : s.n ≠ 0)
    (hs : strictIncB splits = true) :
    ∃ probs, getPMF s splits = .ok probs ∧
      probs.length = splits.length + 1 ∧ probs.sum = 1 := by
  refine ⟨massList s splits 0, ?_, massList_length s splits 0, ?_⟩
  · simp [getPMF, hn, hs]
  · rw [massList_sum, ← h.2.1, sub_zero]
    exact div_self (by exact_mod_cast hn)

/-- C4 witness: the PMF contract applied to the sketch holding the single
item 2 and the strictly increasing split points `[0, 5]`. -/
theorem pmf_contract_witness :
    WF (update (construct 8) 2) ∧ (update (construct 8) 2).n ≠ 0 ∧
    strictIncB [0, 5] = true ∧
    (∃ probs, getPMF (update (construct 8) 2) [0, 5] = .ok probs ∧
      probs.length = ([0, 5] : List Int).length + 1 ∧ probs.sum = 1) :=
  ⟨by decide, by decide, by decide,
    pmf_contract (update (construct 8) 2) [0, 5] (by decide) (by decide) (by decide)⟩

/-- C5: Error bound monotonicity in `k`: for valid accuracy parameters at
or above the minimum 8, the normalized rank-error bound for single-rank
queries strictly decreases as `k` increases. -/
theorem rank_error_monotone (k1 k2 : ℕ) (h8 : 8 ≤ k1) (hlt : k1 < k2) :
    normalizedRankError k2 false < normalizedRankError k1 false := by
  have h1 : 0 < qsqrt k1 := qsqrt_pos k1 (by omega)
  have h2 : qsqrt k1 < qsqrt k2 := qsqrt_lt_of_lt k1 k2 (by omega) hlt
  unfold normalizedRankError
  simp only [Bool.false_eq_true, if_false]
  exact div_lt_div_of_pos_left (by norm_num) h1 h2

/-- C5 witness: the error monotonicity theorem applied at `k1 = 8`,
`k2 = 9`. -/
theorem rank_error_monotone_witness :
    8 ≤ 8 ∧ 8 < 9 ∧ normalizedRankError 9 false < normalizedRankError 8 false :=
  ⟨le_refl 8, by omega, rank_error_monotone 8 9 (le_refl 8) (by omega)⟩

/-- C6 counterexample: the claim says that, per §4.4, `isEmpty` and `getN`
also fail on an empty sketch; in the model — which follows §3
("`isEmpty`: true iff n == 0") and the §7 error taxonomy (which lists only
the six queries under `EmptyStateError`) — both succeed on the freshly
constructed empty sketch, `isEmpty` returning `true` and `getN`
returning 0. -/
theorem isEmpty_getN_succeed_on_empty :
    isEmpty (construct 8) = true ∧ getN (construct 8) = 0 :=
  ⟨rfl, rfl⟩

/-- C6 (amended): on a sketch with `n = 0` every query among `getRank`,
`getQuantile`, `getPMF`, `getCDF`, `getMinValue`, `getMaxValue` signals
the empty-state error, while `isEmpty` returns `true` and `getN`
returns 0. -/
theorem empty_state_errors (s : Sketch) (hn : s.n = 0) (v : Int) (r : ℚ)
    (splits : List Int) :
    getRank s v = .error .emptySketch ∧
    getQuantile s r = .error .emptySketch ∧
    getPMF s splits = .error .emptySketch ∧
    getCDF s splits = .error .emptySketch ∧
    getMinValue s = .error .emptySketch ∧
    getMaxValue s = .error .emptySketch ∧
    isEmpty s = true ∧ getN s = 0 := by
  refine ⟨?_, ?_, ?_, ?_, ?_, ?_, ?_, hn⟩ <;>
    simp [getRank, getQuantile, getPMF, getCDF, getMinValue, getMaxValue, isEmpty, hn]

/-- C6 witness: the amended empty-state theorem applied to the freshly
constructed sketch with `k = 8`. -/
theorem empty_state_errors_witness :
    (construct 8).n = 0 ∧
    (getRank (construct 8) 0 = .error .emptySketch ∧
     getQuantile (construct 8) 0 = .error .emptySketch ∧
     getPMF (construct 8) [] = .error .emptySketch ∧
     getCDF (construct 8) [] = .error .emptySketch ∧
     getMinValue (construct 8) = .error .emptySketch ∧
     getMaxValue (construct 8) = .error .emptySketch ∧
     isEmpty (construct 8) = true ∧ getN (construct 8) = 0) :=
  ⟨rfl, empty_state_errors (construct 8) rfl 0 0 []⟩

/-- C7: Quantile monotonicity: on a non-empty sketch, for ranks
`0 ≤ r1 < r2 ≤ 1` both quantile queries succeed and
`getQuantile r1 ≤ getQuantile r2`. -/
theorem quantile_monotone (s : Sketch) (r1 r2 : ℚ) (hn : s.n ≠ 0)
    (h0 : 0 ≤ r1) (h12 : r1 < r2) (h1 : r2 ≤ 1) :
    ∃ q1 q2, getQuantile s r1 = .ok q1 ∧ getQuantile s r2 = .ok q2 ∧ q1 ≤ q2 := by
  have hr1le : r1 ≤ 1 := le_trans (le_of_lt h12) h1
  have hr20 : 0 ≤ r2 := le_trans h0 (le_of_lt h12)
  refine ⟨selectQ (sortedView s) (r1 * (s.n : ℚ)),
    selectQ (sortedView s) (r2 * (s.n : ℚ)), ?_, ?_, ?_⟩
  · unfold getQuantile
    rw [if_neg hn, if_neg (by push_neg; exact ⟨h0, hr1le⟩)]
  · unfold getQuantile
    rw [if_neg hn, if_neg (by push_neg; exact ⟨hr20, h1⟩)]
  · exact selectQ_mono (sortedView s)
      (List.sorted_insertionSort pairLE (flattenWeighted 0 s.levels)) _ _
      (mul_le_mul_of_nonneg_right (le_of_lt h12) (Nat.cast_nonneg _))

/-- C7 witness: quantile monotonicity applied at the two-item sketch
`[4, 9]` with ranks 0 and 1. -/
theorem quantile_monotone_witness :
    (updateMany (construct 8) [4, 9]).n ≠ 0 ∧
    ((0 : ℚ) ≤ 0 ∧ (0 : ℚ) < 1 ∧ (1 : ℚ) ≤ 1) ∧
    (∃ q1 q2, getQuantile (updateMany (construct 8) [4, 9]) 0 = .ok q1 ∧
      getQuantile (updateMany (construct 8) [4, 9]) 1 = .ok q2 ∧ q1 ≤ q2) :=
  ⟨by decide, ⟨le_refl 0, zero_lt_one, le_refl 1⟩,
    quantile_monotone (updateMany (construct 8) [4, 9]) 0 1 (by decide)
      (le_refl 0) zero_lt_one (le_refl 1)⟩

/-- C8: Weight-sum invariant: on every reachable sketch state `n` equals
`Σ_levels 2^levelIndex · |items(level)|`; and in exact mode (a stream
within the level-0 capacity fed by updates into a fresh sketch) no
promotion has occurred — the whole stream is retained at level 0, where
every item has weight 1. -/
theorem weight_sum_invariant :
    (∀ s : Sketch, Reachable s → s.n = totalWeight s) ∧
    (∀ (k : ℕ) (xs : List Int), xs.length ≤ capacity k 0 →
      (updateMany (construct k) xs).levels = [xs] ∧
      (updateMany (construct k) xs).n = xs.length) := by
  constructor
  · intro s hs
    exact (reachable_wf s hs).2.1
  · intro k xs hcap
    exact ⟨exactSketch_levels k xs hcap, exactSketch_n k xs⟩

/-- C8 witness: the invariant applied to the reachable one-item sketch,
and the exact-mode conjunct applied to the stream `[5, 7]`. -/
theorem weight_sum_invariant_witness :
    (update (construct 8) 3).n = totalWeight (update (construct 8) 3) ∧
    ((updateMany (construct 8) [5, 7]).levels = [[5, 7]] ∧
      (updateMany (construct 8) [5, 7]).n = 2) :=
  ⟨weight_sum_invariant.1 (update (construct 8) 3)
      (Reachable.step (construct 8) 3 (Reachable.init 8 (by norm_num))),
    weight_sum_invariant.2 8 [5, 7] (by decide)⟩

/-- C9: Vectorized update: feeding an array of `m` values behaves exactly
like `m` successive single-value updates — it adds `m` to `n` and moves
the extrema to the minimum/maximum of the previous state and the array's
elements. -/
theorem vectorized_update (s : Sketch) (xs : List Int) :
    (updateMany s xs).n = s.n + xs.length ∧
    (updateMany s xs).minValue = omin s.minValue (listMin xs) ∧
    (updateMany s xs).maxValue = omax s.maxValue (listMax xs) ∧
    updateMany s xs = xs.foldl update s :=
  ⟨updateMany_n s xs, updateMany_minValue s xs, updateMany_maxValue s xs, rfl⟩

/-- C10: Merge into a fresh sketch is identity on aggregates: merging a
non-empty sketch into a freshly constructed one reproduces its `getN`,
`getMinValue` and `getMaxValue` answers, and merging a further sketch
accumulates the counts and extrema. -/
theorem merge_into_fresh (k : ℕ) (S S2 : Sketch) (hS : S.n ≠ 0) :
    getN (merge (construct k) S) = getN S ∧
    getMinValue (merge (construct k) S) = getMinValue S ∧
    getMaxValue (merge (construct k) S) = getMaxValue S ∧
    getN (merge (merge (construct k) S) S2) = S.n + S2.n ∧
    (merge (merge (construct k) S) S2).minValue = omin S.minValue S2.minValue ∧
    (merge (merge (construct k) S) S2).maxValue = omax S.maxValue S2.maxValue := by
  have hn : (merge (construct k) S).n = S.n := by
    rw [merge_n]
    show 0 + S.n = S.n
    omega
  have hmin : (merge (construct k) S).minValue = S.minValue := by
    rw [merge_minValue]
    rfl
  have hmax : (merge (construct k) S).maxValue = S.maxValue := by
    rw [merge_maxValue]
    rfl
  refine ⟨?_, ?_, ?_, ?_, ?_, ?_⟩
  · rw [getN_def, getN_def, hn]
  · unfold getMinValue
    rw [hn, hmin]
  · unfold getMaxValue
    rw [hn, hmax]
  · rw [getN_def, merge_n, hn]
  · rw [merge_minValue, hmin]
  · rw [merge_maxValue, hmax]

/-- C10 witness: the fresh-merge theorem applied to the one-item sketches
holding 5 and 7. -/
theorem merge_into_fresh_witness :
    (update (construct 8) 5).n ≠ 0 ∧
    (getN (merge (construct 8) (update (construct 8) 5)) =
        getN (update (construct 8) 5) ∧
      getMinValue (merge (construct 8) (update (construct 8) 5)) =
        getMinValue (update (construct 8) 5) ∧
      getMaxValue (merge (construct 8) (update (construct 8) 5)) =
        getMaxValue (update (construct 8) 5) ∧
      getN (merge (merge (construct 8) (update (construct 8) 5))
          (update (construct 8) 7)) =
        (update (construct 8) 5).n + (update (construct 8) 7).n ∧
      (merge (merge (construct 8) (update (construct 8) 5))
          (update (construct 8) 7)).minValue =
        omin (update (construct 8) 5).minValue (update (construct 8) 7).minValue ∧
      (merge (merge (construct 8) (update (construct 8) 5))
          (update (construct 8) 7)).maxValue =
        omax (update (construct 8) 5).maxValue (update (construct 8) 7).maxValue) :=
  ⟨by decide,
    merge_into_fresh 8 (update (construct 8) 5) (update (construct 8) 7) (by decide)⟩
